import Mathlib

/-!
Verification of the time-critical scheduling core of the NucleoMag plasmid
purification protocol (`nucleomag_plasmid_purification.py`).

The embedding models:
* the `Task` class (lines 148-155) with its `__lt__` comparison;
* Python's `heapq.heappush` / `heapq.heappop` exactly as implemented in
  CPython's `heapq` module (`_siftdown` bubbles an item towards the root,
  `_siftup` moves the root item to a leaf and then bubbles it up);
* the `delay` helper (lines 142-146);
* the scheduling core of `run` (lines 279-304): the interleaved issue loop
  (phase 1) and the final drain loop (phase 2).

Time is modelled by rationals.  The wall clock (`time.time() - start_time`)
is modelled by an explicit state `now` together with a stream
`adv : ℕ → ℚ` giving the amount of real time that has passed at each
successive clock read (physical pipetting steps take real time, which the
scheduler observes only through such reads).  A blocking
`protocol.delay(minutes := m)` advances `now` by `max (m * 60) 0` seconds
(a blocking wait can never move time backwards).

The loops of the source are `while` loops; they are embedded with an
explicit fuel argument.  Every call site passes fuel equal to the length of
the task queue, which is exactly the number of iterations the corresponding
`while` loop can make (each iteration pops one task and pushes none), so
the fuel never runs out; `phase2F_queue_nil` below makes this precise for
the final drain, which runs until the queue is empty.

Ghost instrumentation (`qlog`, `pushLog`, `popLog`, `waitLog`, `preLysis`)
records intermediate queue states, pushed/popped tasks, the wait
computations of phase 2, and the scheduler state at the instant each
immediate (lysis) action is issued.  The instrumentation does not influence
the control flow or the queue.
-/

namespace NucleoMag

/-- `Task` (source lines 148-152): a deferred action owed to one sample.
`time_to_execute` is the scheduled execution time in elapsed seconds,
`action` the action string (always `add_neutralization` in this
protocol), `sample_id` the sample index. -/
structure Task where
  time_to_execute : ℚ
  action : String
  sample_id : ℕ
deriving DecidableEq, Repr, Inhabited

/-- `Task.__lt__` (source lines 154-155): heap ordering solely by
`time_to_execute`. -/
def Task.lt (a b : Task) : Bool :=
  decide (a.time_to_execute < b.time_to_execute)

/-- Parent index in the implicit binary tree of CPython's `heapq`
(`(pos - 1) >> 1`). -/
def hpParent (j : ℕ) : ℕ := (j - 1) / 2

/-- CPython `heapq._siftdown(heap, startpos, pos)`: the item `newitem`
conceptually stored at `pos` bubbles up towards `startpos`, moving parents
down, until its parent is no longer larger; finally `newitem` is written at
the reached position.  `fuel` bounds the iteration count; every call site
passes `fuel = pos`, which suffices since `pos` strictly decreases. -/
def siftdownF : ℕ → List Task → ℕ → ℕ → Task → List Task
  | 0, heap, _, pos, newitem => heap.set pos newitem
  | fuel + 1, heap, startpos, pos, newitem =>
    if startpos < pos then
      if Task.lt newitem (heap.getD (hpParent pos) default) then
        siftdownF fuel (heap.set pos (heap.getD (hpParent pos) default)) startpos
          (hpParent pos) newitem
      else
        heap.set pos newitem
    else
      heap.set pos newitem

/-- The child index CPython's `_siftup` descends to: the right child
`2*pos+2` when it exists and the left child is not smaller, otherwise the
left child `2*pos+1`. -/
def siftupNext (heap : List Task) (pos endpos : ℕ) : ℕ :=
  if 2 * pos + 2 < endpos &&
      !(Task.lt (heap.getD (2 * pos + 1) default) (heap.getD (2 * pos + 2) default)) then
    2 * pos + 2
  else
    2 * pos + 1

/-- CPython `heapq._siftup(heap, pos)` main loop: repeatedly move the
smaller child up into `pos` and descend, until a leaf is reached, then
write `newitem` there and bubble it up with `_siftdown`.  `fuel` bounds the
iteration count; call sites pass `fuel = endpos`, which suffices since
`pos` strictly increases while it has a child below `endpos`. -/
def siftupF : ℕ → List Task → ℕ → ℕ → ℕ → Task → List Task
  | 0, heap, startpos, pos, _, newitem =>
    siftdownF pos (heap.set pos newitem) startpos pos newitem
  | fuel + 1, heap, startpos, pos, endpos, newitem =>
    if 2 * pos + 1 < endpos then
      siftupF fuel (heap.set pos (heap.getD (siftupNext heap pos endpos) default))
        startpos (siftupNext heap pos endpos) endpos newitem
    else
      siftdownF pos (heap.set pos newitem) startpos pos newitem

/-- `heapq.heappush(heap, item)`: append `item` and let it bubble up. -/
def heappush (heap : List Task) (item : Task) : List Task :=
  siftdownF heap.length (heap ++ [item]) 0 heap.length item

/-- `heapq._siftup(heap, pos)` wrapper: `newitem = heap[pos]`. -/
def siftup (heap : List Task) (pos : ℕ) : List Task :=
  siftupF heap.length heap pos pos heap.length (heap.getD pos default)

/-- `heapq.heappop(heap)`: pop the last element; if the heap is still
non-empty, the root is returned and the last element is sifted down from
the root.  Returns the popped task together with the remaining heap.
(The source never pops an empty heap; on `[]` this total model returns a
default element.) -/
def heappop (heap : List Task) : Task × List Task :=
  match heap.dropLast with
  | [] => (heap.getLastD default, [])
  | r0 :: _ => (r0, siftup ((heap.dropLast).set 0 (heap.getLastD default)) 0)

/-- Observable events of the scheduling core.  `lysis i t` is sample `i`'s
immediate (lysis-buffer) action issued at elapsed time `t`; `neut i t due`
is sample `i`'s deferred (neutralization-buffer) action executed at elapsed
time `t`, where `due` is the `time_to_execute` of the popped task;
`commentSkipped` is the comment `Debugging mode: delay skipped.`,
`doDelay m` a blocking `protocol.delay(minutes=m)`, and `commentDelayBy m`
the comment `Delay protocol by m min.`. -/
inductive Event where
  | lysis (i : ℕ) (t : ℚ)
  | neut (i : ℕ) (t : ℚ) (due : ℚ)
  | commentSkipped
  | doDelay (minutes : ℚ)
  | commentDelayBy (minutes : ℚ)
deriving DecidableEq, Repr

/-- The `delay` helper (source lines 142-146), as the list of events it
emits: when `debug` is false it emits the skip comment and then actually
performs the blocking delay; in both cases it then emits the
`Delay protocol by ... min.` comment. -/
def delay (delay_min : ℚ) (debug : Bool) : List Event :=
  (if !debug then [Event.commentSkipped, Event.doDelay delay_min] else []) ++
    [Event.commentDelayBy delay_min]

/-- Elapsed-time advance caused by one `delay` helper call:
`protocol.delay(minutes := m)` blocks for `m` minutes when it runs (and a
blocking wait never moves time backwards), and it is only run when `debug`
is false. -/
def delayAdvance (delay_min : ℚ) (debug : Bool) : ℚ :=
  if !debug then max (delay_min * 60) 0 else 0

/-- Configuration of the scheduling core: the runtime parameters it reads
(`protocol.params.sample_count`, `protocol.params.delay_lysis` in minutes,
`protocol.params.debug`). -/
structure Config where
  sample_count : ℕ
  delay_lysis : ℕ
  debug : Bool

/-- Scheduler state: the task queue (`task_queue`), the elapsed time `now`
of the most recent clock read, the number of clock reads so far, the event
trace, and ghost logs (queue snapshots after every push/pop, all pushed
tasks, all popped tasks, the `(remaining, minutes)` pairs of every phase-2
wait computation, and the `(now, queue)` pairs at each lysis issue). -/
structure SchedState where
  queue : List Task
  now : ℚ
  reads : ℕ
  trace : List Event
  qlog : List (List Task)
  pushLog : List Task
  popLog : List Task
  waitLog : List (ℚ × ℚ)
  preLysis : List (ℚ × List Task)
deriving Repr

/-- One evaluation of `time.time() - start_time`: real time has advanced by
`adv s.reads` since the previous read. -/
def bumpClock (adv : ℕ → ℚ) (s : SchedState) : SchedState :=
  { s with now := s.now + adv s.reads, reads := s.reads + 1 }

/-- The state at the start of the scheduling core (lines 279-280):
`task_queue = []`, `start_time` anchored so that elapsed time is `0`. -/
def initState : SchedState :=
  { queue := [], now := 0, reads := 0, trace := [], qlog := [[]],
    pushLog := [], popLog := [], waitLog := [], preLysis := [] }

/-- Pop the root task and execute it (the body shared by both drain loops,
source lines 283-287 and 300-304): `heapq.heappop`, then, if the action is
`add_neutralization`, the neutralization transfer for the task's sample,
recorded at the current elapsed time. -/
def drainPop (s : SchedState) : SchedState :=
  { s with queue := (heappop s.queue).2,
           trace := s.trace ++
             (if (heappop s.queue).1.action = "add_neutralization" then
               [Event.neut (heappop s.queue).1.sample_id s.now
                 (heappop s.queue).1.time_to_execute]
             else []),
           qlog := s.qlog ++ [(heappop s.queue).2],
           popLog := s.popLog ++ [(heappop s.queue).1] }

/-- The phase-1 drain loop (source lines 282-287):
`while task_queue and task_queue[0].time_to_execute < (time.time() - start_time)`,
pop the root and execute it.  The clock is read at every condition
evaluation whose queue test succeeds (including the final, failing one). -/
def drainLoopF (adv : ℕ → ℚ) : ℕ → SchedState → SchedState
  | 0, s => s
  | fuel + 1, s =>
    match s.queue with
    | [] => s
    | t :: _ =>
      if t.time_to_execute < (bumpClock adv s).now then
        drainLoopF adv fuel (drainPop (bumpClock adv s))
      else
        bumpClock adv s

/-- The phase-1 drain loop with its actual fuel (the queue length). -/
def drainLoop (adv : ℕ → ℚ) (s : SchedState) : SchedState :=
  drainLoopF adv s.queue.length s

/-- Issue sample `i`'s immediate lysis action (source lines 289-291) at the
current elapsed time, recording the pre-issue scheduler state. -/
def issueLysis (s : SchedState) (i : ℕ) : SchedState :=
  { s with trace := s.trace ++ [Event.lysis i s.now],
           preLysis := s.preLysis ++ [(s.now, s.queue)] }

/-- The neutralization task pushed for sample `i` (source line 292-293):
due `delay_lysis * 60` seconds after the current elapsed time. -/
def newTask (cfg : Config) (s : SchedState) (i : ℕ) : Task :=
  ⟨s.now + cfg.delay_lysis * 60, "add_neutralization", i⟩

/-- Push sample `i`'s neutralization task (source line 293). -/
def pushNeut (cfg : Config) (s : SchedState) (i : ℕ) : SchedState :=
  { s with queue := heappush s.queue (newTask cfg s i),
           qlog := s.qlog ++ [heappush s.queue (newTask cfg s i)],
           pushLog := s.pushLog ++ [newTask cfg s i] }

/-- One iteration of the phase-1 `for` loop (source lines 281-293) for
sample `i`: drain due tasks, issue the lysis action, read the clock
(line 292), and push the neutralization task. -/
def phase1Body (cfg : Config) (adv : ℕ → ℚ) (s : SchedState) (i : ℕ) :
    SchedState :=
  pushNeut cfg (bumpClock adv (issueLysis (drainLoop adv s) i)) i

/-- Phase 1 (source lines 281-293): the interleaved issue loop over all
samples. -/
def phase1 (cfg : Config) (adv : ℕ → ℚ) : SchedState :=
  (List.range cfg.sample_count).foldl (phase1Body cfg adv) initState

/-- The minutes argument of the phase-2 `delay` call (source line 298):
`math.ceil(task_queue[0].time_to_execute - (time.time() - start_time)) / 60`,
where `now₂` is the fresh clock read made inside the argument
computation. -/
def waitMinutes (t : Task) (now₂ : ℚ) : ℚ :=
  ((⌈t.time_to_execute - now₂⌉ : ℤ) : ℚ) / 60

/-- The phase-2 wait (source lines 297-298), starting from the state `s₁`
after the guard's clock read: read the clock again, call the `delay`
helper, and advance elapsed time by however long the helper blocked. -/
def phase2Wait (cfg : Config) (adv : ℕ → ℚ) (s₁ : SchedState) (t : Task) :
    SchedState :=
  { bumpClock adv s₁ with
      trace := s₁.trace ++ delay (waitMinutes t (bumpClock adv s₁).now) cfg.debug,
      now := (bumpClock adv s₁).now +
        delayAdvance (waitMinutes t (bumpClock adv s₁).now) cfg.debug,
      waitLog := s₁.waitLog ++
        [(t.time_to_execute - (bumpClock adv s₁).now,
          waitMinutes t (bumpClock adv s₁).now)] }

/-- The phase-2 final drain loop (source lines 296-304): while the queue is
non-empty, if the earliest task is still in the future, wait, then pop and
execute it. -/
def phase2F (cfg : Config) (adv : ℕ → ℚ) : ℕ → SchedState → SchedState
  | 0, s => s
  | fuel + 1, s =>
    match s.queue with
    | [] => s
    | t :: _ =>
      if t.time_to_execute > (bumpClock adv s).now then
        phase2F cfg adv fuel (drainPop (phase2Wait cfg adv (bumpClock adv s) t))
      else
        phase2F cfg adv fuel (drainPop (bumpClock adv s))

/-- The full scheduling core (source lines 279-304): phase 1 followed by
the final drain with fuel equal to the queue length at its entry. -/
def run (cfg : Config) (adv : ℕ → ℚ) : SchedState :=
  phase2F cfg adv (phase1 cfg adv).queue.length (phase1 cfg adv)

/-- Sample ids of the neutralization events of a trace, in trace order. -/
def neutIds (tr : List Event) : List ℕ :=
  tr.filterMap fun e =>
    match e with
    | Event.neut i _ _ => some i
    | _ => none

/-- Due times (`time_to_execute` of the popped task) of the neutralization
events of a trace, in trace order. -/
def execDues (tr : List Event) : List ℚ :=
  tr.filterMap fun e =>
    match e with
    | Event.neut _ _ due => some due
    | _ => none

/-- Number of lysis events for sample `i` in a trace. -/
def lysisCount (tr : List Event) (i : ℕ) : ℕ :=
  tr.countP fun e =>
    match e with
    | Event.lysis j _ => decide (j = i)
    | _ => false

/-- Number of neutralization events for sample `i` in a trace. -/
def neutCount (tr : List Event) (i : ℕ) : ℕ :=
  (neutIds tr).count i

/-- The blocking-delay durations (in minutes) occurring in a trace. -/
def delayMinutes (tr : List Event) : List ℚ :=
  tr.filterMap fun e =>
    match e with
    | Event.doDelay m => some m
    | _ => none

/-- Whether an event is an invocation of the blocking Delay Primitive. -/
def isDelayEvent (e : Event) : Bool :=
  match e with
  | Event.doDelay _ => true
  | _ => false

/-- Whether an event is an immediate (lysis) action. -/
def isLysisEvent (e : Event) : Bool :=
  match e with
  | Event.lysis _ _ => true
  | _ => false

/-! ### Basic indexing facts -/

theorem getD_set_self (l : List Task) (i : ℕ) (x d : Task) (h : i < l.length) :
    (l.set i x).getD i d = x := by
  simp [List.getD_eq_getElem?_getD, List.getElem?_set_self h]

theorem getD_set_ne (l : List Task) {i j : ℕ} (x d : Task) (h : i ≠ j) :
    (l.set i x).getD j d = l.getD j d := by
  simp [List.getD_eq_getElem?_getD, List.getElem?_set_ne h]

theorem getD_mem (l : List Task) (i : ℕ) (d : Task) (h : i < l.length) :
    l.getD i d ∈ l := by
  rw [List.getD_eq_getElem?_getD, List.getElem?_eq_getElem h]
  exact List.getElem_mem h

theorem getD_dropLast (l : List Task) (k : ℕ) (d : Task)
    (hk : k < l.dropLast.length) :
    l.dropLast.getD k d = l.getD k d := by
  have hk' : k < l.length := by
    rw [List.length_dropLast] at hk
    omega
  rw [List.getD_eq_getElem?_getD, List.getD_eq_getElem?_getD,
    List.getElem?_eq_getElem hk, List.getElem?_eq_getElem hk']
  simp [List.getElem_dropLast]

theorem set_getD_self (l : List Task) (i : ℕ) (d : Task) :
    l.set i (l.getD i d) = l := by
  induction l generalizing i with
  | nil => simp
  | cons a t ih =>
    cases i with
    | zero => simp
    | succ n => rw [List.getD_cons_succ, List.set_cons_succ, ih]

theorem hpParent_lt {j : ℕ} (h : 0 < j) : hpParent j < j := by
  unfold hpParent; omega

theorem hpParent_child {p j : ℕ} (h0 : 0 < j) (h : hpParent j = p) :
    j = 2 * p + 1 ∨ j = 2 * p + 2 := by
  unfold hpParent at h; omega

/-! ### Length preservation of the heap operations -/

theorem siftdownF_length (fuel : ℕ) (heap : List Task) (sp pos : ℕ) (x : Task) :
    (siftdownF fuel heap sp pos x).length = heap.length := by
  induction fuel generalizing heap pos with
  | zero => simp [siftdownF]
  | succ n ih =>
    simp only [siftdownF]
    split
    · split
      · rw [ih]; simp
      · simp
    · simp

theorem siftupF_length (fuel : ℕ) (heap : List Task) (sp pos ep : ℕ) (x : Task) :
    (siftupF fuel heap sp pos ep x).length = heap.length := by
  induction fuel generalizing heap pos with
  | zero => simp [siftupF, siftdownF_length]
  | succ n ih =>
    simp only [siftupF]
    split
    · rw [ih]; simp
    · rw [siftdownF_length]; simp

theorem heappush_length (h : List Task) (x : Task) :
    (heappush h x).length = h.length + 1 := by
  simp [heappush, siftdownF_length]

theorem siftup_length (h : List Task) (pos : ℕ) :
    (siftup h pos).length = h.length := by
  simp [siftup, siftupF_length]

theorem heappop_length (t : Task) (rest : List Task) :
    (heappop (t :: rest)).2.length = rest.length := by
  unfold heappop
  cases rest with
  | nil => simp
  | cons b tl =>
    rw [List.dropLast_cons₂]
    simp [siftup_length]

theorem heappop_fst (t : Task) (rest : List Task) :
    (heappop (t :: rest)).1 = t := by
  unfold heappop
  cases rest with
  | nil => simp
  | cons b tl => rw [List.dropLast_cons₂]

/-! ### The heap operations permute the multiset of tasks -/

theorem ms_set (l : List Task) (i : ℕ) (x : Task) (h : i < l.length) :
    ((l.set i x : List Task) : Multiset Task) =
      x ::ₘ (↑l : Multiset Task).erase (l.getD i default) := by
  induction l generalizing i with
  | nil => simp at h
  | cons a t ih =>
    cases i with
    | zero =>
      simp only [List.set_cons_zero, List.getD_cons_zero, ← Multiset.cons_coe,
        Multiset.erase_cons_head]
    | succ n =>
      have hn : n < t.length := by simpa using h
      simp only [List.set_cons_succ, List.getD_cons_succ, ← Multiset.cons_coe]
      rw [ih n hn]
      by_cases ha : a = t.getD n default
      · subst ha
        rw [Multiset.erase_cons_head, Multiset.cons_swap,
          Multiset.cons_erase (by exact_mod_cast getD_mem t n default hn)]
      · rw [Multiset.erase_cons_tail _ ha, Multiset.cons_swap]

theorem ms_set_swap (l : List Task) {i j : ℕ} (x : Task)
    (hi : i < l.length) (hj : j < l.length) (hij : i ≠ j) :
    (((l.set i (l.getD j default)).set j x : List Task) : Multiset Task) =
      ((l.set i x : List Task) : Multiset Task) := by
  rw [ms_set _ j x (by simpa using hj), ms_set l i x hi,
    getD_set_ne l _ _ hij, ms_set l i (l.getD j default) hi,
    Multiset.erase_cons_head]

theorem siftdownF_ms (fuel : ℕ) (heap : List Task) (sp pos : ℕ) (x : Task)
    (hpos : pos < heap.length) :
    ((siftdownF fuel heap sp pos x : List Task) : Multiset Task) =
      ((heap.set pos x : List Task) : Multiset Task) := by
  induction fuel generalizing heap pos with
  | zero => simp [siftdownF]
  | succ n ih =>
    simp only [siftdownF]
    split
    · split
      · next hsp _ =>
        have hp : hpParent pos < pos := hpParent_lt (by omega)
        rw [ih _ _ (by simpa using lt_trans hp hpos)]
        exact ms_set_swap heap x hpos (lt_trans hp hpos) (by omega)
      · rfl
    · rfl

theorem siftupNext_bounds (heap : List Task) (pos endpos : ℕ)
    (h : 2 * pos + 1 < endpos) :
    2 * pos + 1 ≤ siftupNext heap pos endpos ∧
      siftupNext heap pos endpos ≤ 2 * pos + 2 ∧
      siftupNext heap pos endpos < endpos := by
  unfold siftupNext
  split
  · next hc =>
    simp only [Bool.and_eq_true, decide_eq_true_eq] at hc
    omega
  · omega

theorem siftupF_ms (fuel : ℕ) (heap : List Task) (sp pos endpos : ℕ) (x : Task)
    (hpos : pos < heap.length) (hend : endpos ≤ heap.length) :
    ((siftupF fuel heap sp pos endpos x : List Task) : Multiset Task) =
      ((heap.set pos x : List Task) : Multiset Task) := by
  induction fuel generalizing heap pos with
  | zero =>
    simp only [siftupF]
    rw [siftdownF_ms _ _ _ _ _ (by simpa using hpos), List.set_set]
  | succ n ih =>
    simp only [siftupF]
    split
    · next hc =>
      obtain ⟨h1, h2, h3⟩ := siftupNext_bounds heap pos endpos hc
      have hclen : siftupNext heap pos endpos < heap.length := lt_of_lt_of_le h3 hend
      rw [ih _ _ (by simpa using hclen) (by simpa using hend)]
      exact ms_set_swap heap x hpos hclen (by omega)
    · rw [siftdownF_ms _ _ _ _ _ (by simpa using hpos), List.set_set]

theorem set_append_last (h : List Task) (x y : Task) :
    (h ++ [x]).set h.length y = h ++ [y] := by
  induction h with
  | nil => rfl
  | cons a t ih => simp only [List.cons_append, List.length_cons,
      List.set_cons_succ, ih]

theorem heappush_ms (h : List Task) (x : Task) :
    ((heappush h x : List Task) : Multiset Task) = x ::ₘ (↑h : Multiset Task) := by
  unfold heappush
  rw [siftdownF_ms _ _ _ _ _ (by simp), set_append_last]
  exact Multiset.coe_eq_coe.2 (List.perm_append_singleton x h)

theorem heappop_cons₂ (t b : Task) (tl : List Task) :
    heappop (t :: b :: tl) =
      (t, siftup (((t :: b :: tl).dropLast).set 0 ((t :: b :: tl).getLastD default)) 0) := by
  unfold heappop
  rw [List.dropLast_cons₂]

theorem siftup_zero_ms (g : List Task) (hg : 0 < g.length) :
    ((siftup g 0 : List Task) : Multiset Task) = (↑g : Multiset Task) := by
  unfold siftup
  rw [siftupF_ms _ _ _ _ _ _ hg le_rfl, set_getD_self]

theorem heappop_ms (t : Task) (rest : List Task) :
    ((t :: rest : List Task) : Multiset Task) =
      (heappop (t :: rest)).1 ::ₘ ((heappop (t :: rest)).2 : Multiset Task) := by
  cases rest with
  | nil => simp [heappop]
  | cons b tl =>
    rw [heappop_cons₂]
    have hdl : (t :: b :: tl).dropLast = t :: (b :: tl).dropLast := List.dropLast_cons₂
    have hlen : 0 < (t :: b :: tl).dropLast.length := by rw [hdl]; simp
    rw [siftup_zero_ms _ (by simp [hlen]), ms_set _ 0 _ hlen]
    have h0 : ((t :: b :: tl).dropLast).getD 0 default = t := by rw [hdl]; rfl
    rw [h0]
    have htmem : t ∈ ((t :: b :: tl).dropLast : List Task) := by
      rw [hdl]; exact List.mem_cons_self t _
    rw [Multiset.cons_swap, Multiset.cons_erase (by exact_mod_cast htmem)]
    have hne : (t :: b :: tl) ≠ ([] : List Task) := by simp
    have hlast : (t :: b :: tl).getLastD default = (t :: b :: tl).getLast hne := by
      rw [List.getLastD_eq_getLast?, List.getLast?_eq_getLast _ hne]
      rfl
    conv_lhs => rw [← List.dropLast_append_getLast hne]
    rw [← Multiset.coe_add, ← hlast, add_comm, Multiset.coe_singleton,
      Multiset.singleton_add]

theorem heappop_mem (t : Task) (rest : List Task) {x : Task}
    (hx : x ∈ (heappop (t :: rest)).2) : x ∈ t :: rest := by
  have := heappop_ms t rest
  have hx' : x ∈ ((t :: rest : List Task) : Multiset Task) := by
    rw [this]
    exact Multiset.mem_cons_of_mem (by exact_mod_cast hx)
  exact_mod_cast hx'

/-! ### The binary-heap ordering invariant and its preservation -/

/-- The heap invariant of CPython's `heapq`: every non-root entry is no
smaller than its parent, comparing by `time_to_execute` exactly as
`Task.__lt__` does. -/
def heapInv (h : List Task) : Prop :=
  ∀ j, 0 < j → j < h.length →
    (h.getD (hpParent j) default).time_to_execute ≤
      (h.getD j default).time_to_execute

theorem heapInv_root_le (h : List Task) (hinv : heapInv h) :
    ∀ i, i < h.length →
      (h.getD 0 default).time_to_execute ≤ (h.getD i default).time_to_execute := by
  intro i
  induction i using Nat.strong_induction_on with
  | _ i ih =>
    intro hi
    rcases Nat.eq_zero_or_pos i with h0 | h0
    · subst h0; exact le_refl _
    · exact le_trans
        (ih (hpParent i) (hpParent_lt h0) (lt_trans (hpParent_lt h0) hi))
        (hinv i h0 hi)

theorem heapInv_head_le (t : Task) (rest : List Task) (hinv : heapInv (t :: rest))
    {x : Task} (hx : x ∈ t :: rest) :
    t.time_to_execute ≤ x.time_to_execute := by
  obtain ⟨n, hn, rfl⟩ := List.mem_iff_getElem.1 hx
  have h := heapInv_root_le _ hinv n hn
  simpa [List.getD_eq_getElem?_getD, List.getElem?_eq_getElem hn] using h

/-- Invariant of the `_siftdown` (bubble-up) loop: the virtual array `v`
(the heap with `newitem` written at `pos`) satisfies the heap invariant on
every edge except possibly the one from `pos`'s parent to `pos`, and
`pos`'s parent is already no larger than `pos`'s children. -/
def upInv (v : List Task) (pos : ℕ) : Prop :=
  (∀ j, 0 < j → j < v.length → j ≠ pos →
    (v.getD (hpParent j) default).time_to_execute ≤
      (v.getD j default).time_to_execute) ∧
  (0 < pos → ∀ c, c < v.length → hpParent c = pos →
    (v.getD (hpParent pos) default).time_to_execute ≤
      (v.getD c default).time_to_execute)

theorem upInv_step (heap : List Task) (pos : ℕ) (item : Task)
    (hpos : pos < heap.length) (h0 : 0 < pos)
    (hinv : upInv (heap.set pos item) pos)
    (hlt : item.time_to_execute <
      (heap.getD (hpParent pos) default).time_to_execute) :
    upInv ((heap.set pos (heap.getD (hpParent pos) default)).set (hpParent pos) item)
      (hpParent pos) := by
  have hplt : hpParent pos < pos := hpParent_lt h0
  have hple : hpParent pos < heap.length := lt_trans hplt hpos
  have hw_p : ((heap.set pos (heap.getD (hpParent pos) default)).set (hpParent pos)
      item).getD (hpParent pos) default = item :=
    getD_set_self _ _ _ _ (by simpa using hple)
  have hw_pos : ((heap.set pos (heap.getD (hpParent pos) default)).set (hpParent pos)
      item).getD pos default = heap.getD (hpParent pos) default := by
    rw [getD_set_ne _ _ _ (Nat.ne_of_lt hplt), getD_set_self _ _ _ _ hpos]
  have hw_other : ∀ k, k ≠ hpParent pos → k ≠ pos →
      ((heap.set pos (heap.getD (hpParent pos) default)).set (hpParent pos)
        item).getD k default = heap.getD k default := by
    intro k hk1 hk2
    rw [getD_set_ne _ _ _ (Ne.symm hk1), getD_set_ne _ _ _ (Ne.symm hk2)]
  have hv_pos : (heap.set pos item).getD pos default = item :=
    getD_set_self _ _ _ _ hpos
  have hv_other : ∀ k, k ≠ pos →
      (heap.set pos item).getD k default = heap.getD k default :=
    fun k hk => getD_set_ne _ _ _ (Ne.symm hk)
  constructor
  · intro j hj0 hjlen hjp
    rw [List.length_set, List.length_set] at hjlen
    by_cases hjpos : j = pos
    · subst hjpos
      rw [show hpParent j = hpParent j from rfl]
      rw [hw_p] at *
      rw [hw_pos]
      rw [hw_p]
      exact le_of_lt hlt
    · by_cases hpj : hpParent j = pos
      · -- j is a child of pos
        rw [hpj, hw_pos, hw_other j hjp hjpos]
        have h2 := hinv.2 h0 j (by simpa using hjlen) hpj
        rw [hv_other _ (Nat.ne_of_lt hplt), hv_other _ hjpos] at h2
        exact h2
      · by_cases hpj2 : hpParent j = hpParent pos
        · -- j is a sibling of pos (shares its parent)
          rw [hpj2, hw_p, hw_other j hjp hjpos]
          have h1 := hinv.1 j hj0 (by simpa using hjlen) hjpos
          rw [hpj2, hv_other _ (Nat.ne_of_lt hplt), hv_other _ hjpos] at h1
          exact le_trans (le_of_lt hlt) h1
        · rw [hw_other j hjp hjpos, hw_other _ hpj2 hpj]
          have h1 := hinv.1 j hj0 (by simpa using hjlen) hjpos
          rw [hv_other _ hjpos, hv_other _ hpj] at h1
          exact h1
  · intro hp0 c hclen hcp
    rw [List.length_set, List.length_set] at hclen
    have hpp_lt : hpParent (hpParent pos) < hpParent pos := hpParent_lt hp0
    have hpp_ne_pos : hpParent (hpParent pos) ≠ pos := by omega
    have hneed1 : (heap.getD (hpParent (hpParent pos)) default).time_to_execute ≤
        (heap.getD (hpParent pos) default).time_to_execute := by
      have h1 := hinv.1 (hpParent pos) hp0 (by simpa using hple) (Nat.ne_of_lt hplt)
      rw [hv_other _ hpp_ne_pos, hv_other _ (Nat.ne_of_lt hplt)] at h1
      exact h1
    rw [hw_other _ (Nat.ne_of_lt hpp_lt) hpp_ne_pos]
    by_cases hc : c = pos
    · subst hc
      rw [hw_pos]
      exact hneed1
    · have hc0 : 0 < c := by
        rcases Nat.eq_zero_or_pos c with rfl | h
        · exfalso
          have : hpParent 0 = 0 := rfl
          omega
        · exact h
      have hcgt : hpParent pos < c := by
        rcases hpParent_child hc0 hcp with rfl | rfl <;> omega
      have hcnp : c ≠ hpParent pos := by omega
      rw [hw_other _ hcnp hc]
      have h1 := hinv.1 c hc0 (by simpa using hclen) hc
      rw [hcp, hv_other _ hc, hv_other _ (Nat.ne_of_lt hplt)] at h1
      exact le_trans hneed1 h1

theorem up_main (fuel : ℕ) (heap : List Task) (pos : ℕ) (item : Task)
    (hfuel : pos ≤ fuel) (hpos : pos < heap.length)
    (hinv : upInv (heap.set pos item) pos) :
    heapInv (siftdownF fuel heap 0 pos item) := by
  induction fuel generalizing heap pos with
  | zero =>
    have hpos0 : pos = 0 := Nat.le_zero.1 hfuel
    subst hpos0
    simp only [siftdownF]
    intro j hj0 hjlen
    exact hinv.1 j hj0 (by simpa using hjlen) (by omega)
  | succ n ih =>
    simp only [siftdownF]
    split
    · next hsp =>
      split
      · next hltb =>
        have hlt : item.time_to_execute <
            (heap.getD (hpParent pos) default).time_to_execute := by
          simpa [Task.lt] using hltb
        exact ih _ _ (by have := hpParent_lt hsp; omega)
          (by simpa using lt_trans (hpParent_lt hsp) hpos)
          (upInv_step heap pos item hpos hsp hinv hlt)
      · next hltb =>
        have hge : (heap.getD (hpParent pos) default).time_to_execute ≤
            item.time_to_execute := by
          simpa [Task.lt, not_lt] using hltb
        intro j hj0 hjlen
        rw [List.length_set] at hjlen
        by_cases hj : j = pos
        · subst hj
          rw [getD_set_self _ _ _ _ hpos,
            getD_set_ne _ _ _ (Nat.ne_of_gt (hpParent_lt hj0))]
          exact hge
        · exact hinv.1 j hj0 (by simpa using hjlen) hj
    · next hsp =>
      have hpos0 : pos = 0 := by omega
      subst hpos0
      intro j hj0 hjlen
      exact hinv.1 j hj0 (by simpa using hjlen) (by omega)

theorem heappush_heapInv (h : List Task) (x : Task) (hinv : heapInv h) :
    heapInv (heappush h x) := by
  unfold heappush
  apply up_main _ _ _ _ le_rfl (by simp)
  rw [set_append_last]
  constructor
  · intro j hj0 hjlen hjne
    rw [List.length_append, List.length_singleton] at hjlen
    have hjlt : j < h.length := by omega
    rw [List.getD_append _ _ _ _ hjlt,
      List.getD_append _ _ _ _ (lt_trans (hpParent_lt hj0) hjlt)]
    exact hinv j hj0 hjlt
  · intro hp0 c hclen hcp
    exfalso
    have hc0 : 0 < c := by
      rcases Nat.eq_zero_or_pos c with rfl | h'
      · have : hpParent 0 = 0 := rfl
        omega
      · exact h'
    rcases hpParent_child hc0 hcp with rfl | rfl <;>
      · rw [List.length_append, List.length_singleton] at hclen
        omega

/-- Invariant of the `_siftup` (descend-to-leaf) loop: the array with a
hole at `pos` satisfies the heap invariant on every edge not touching
`pos`, and `pos`'s parent is already no larger than `pos`'s children. -/
def downInv (g : List Task) (pos : ℕ) : Prop :=
  (∀ j, 0 < j → j < g.length → j ≠ pos → hpParent j ≠ pos →
    (g.getD (hpParent j) default).time_to_execute ≤
      (g.getD j default).time_to_execute) ∧
  (0 < pos → ∀ c, c < g.length → hpParent c = pos →
    (g.getD (hpParent pos) default).time_to_execute ≤
      (g.getD c default).time_to_execute)

theorem siftupNext_min (g : List Task) (pos endpos : ℕ)
    (hchild : 2 * pos + 1 < endpos) :
    ∀ s, 0 < s → s < endpos → hpParent s = pos →
      (g.getD (siftupNext g pos endpos) default).time_to_execute ≤
        (g.getD s default).time_to_execute := by
  intro s hs0 hs hps
  have hs2 : s = 2 * pos + 1 ∨ s = 2 * pos + 2 := hpParent_child hs0 hps
  unfold siftupNext
  split
  · next hc =>
    simp only [Bool.and_eq_true, Bool.not_eq_true', decide_eq_true_eq] at hc
    rcases hs2 with rfl | rfl
    · have hle : ¬ ((g.getD (2 * pos + 1) default).time_to_execute <
          (g.getD (2 * pos + 2) default).time_to_execute) := by
        simpa [Task.lt] using hc.2
      exact le_of_not_lt hle
    · exact le_refl _
  · next hc =>
    rcases hs2 with rfl | rfl
    · exact le_refl _
    · have h2 : 2 * pos + 2 < endpos := hs
      have hlt : (g.getD (2 * pos + 1) default).time_to_execute <
          (g.getD (2 * pos + 2) default).time_to_execute := by
        by_contra hn
        apply hc
        simp only [Bool.and_eq_true, Bool.not_eq_true', decide_eq_true_eq]
        refine ⟨h2, ?_⟩
        simp only [Task.lt, decide_eq_false_iff_not]
        exact hn
      exact le_of_lt hlt

theorem hpParent_siftupNext (g : List Task) (pos endpos : ℕ)
    (hchild : 2 * pos + 1 < endpos) :
    hpParent (siftupNext g pos endpos) = pos := by
  obtain ⟨h1, h2, h3⟩ := siftupNext_bounds g pos endpos hchild
  unfold hpParent
  omega

theorem downInv_step (g : List Task) (pos endpos : ℕ)
    (hend : endpos = g.length) (hpos : pos < g.length)
    (hchild : 2 * pos + 1 < endpos) (hinv : downInv g pos) :
    downInv (g.set pos (g.getD (siftupNext g pos endpos) default))
      (siftupNext g pos endpos) := by
  obtain ⟨hb1, hb2, hb3⟩ := siftupNext_bounds g pos endpos hchild
  have hcp : hpParent (siftupNext g pos endpos) = pos :=
    hpParent_siftupNext g pos endpos hchild
  have hclen : siftupNext g pos endpos < g.length := hend ▸ hb3
  have hcpos : pos < siftupNext g pos endpos := by omega
  have hg_pos : (g.set pos (g.getD (siftupNext g pos endpos) default)).getD pos
      default = g.getD (siftupNext g pos endpos) default :=
    getD_set_self _ _ _ _ hpos
  have hg_other : ∀ k, k ≠ pos →
      (g.set pos (g.getD (siftupNext g pos endpos) default)).getD k default =
        g.getD k default :=
    fun k hk => getD_set_ne _ _ _ (Ne.symm hk)
  constructor
  · intro j hj0 hjlen hjc hpjc
    rw [List.length_set] at hjlen
    by_cases hjpos : j = pos
    · subst hjpos
      have hp0 : 0 < j := hj0
      have hppj : hpParent j ≠ j := Nat.ne_of_lt (hpParent_lt hj0)
      rw [hg_other _ hppj, hg_pos]
      exact hinv.2 hj0 _ hclen hcp
    · by_cases hpj : hpParent j = pos
      · rw [hpj, hg_pos, hg_other _ hjpos]
        exact siftupNext_min g pos endpos hchild j hj0 (hend ▸ hjlen) hpj
      · rw [hg_other _ hjpos, hg_other _ hpj]
        exact hinv.1 j hj0 hjlen hjpos hpj
  · intro hc0 d hdlen hdc
    rw [List.length_set] at hdlen
    have hd0 : 0 < d := by
      rcases Nat.eq_zero_or_pos d with rfl | h'
      · have : hpParent 0 = 0 := rfl
        omega
      · exact h'
    have hdgt : siftupNext g pos endpos < d := by
      rcases hpParent_child hd0 hdc with rfl | rfl <;> omega
    have hdpos : d ≠ pos := by omega
    rw [hcp, hg_pos, hg_other _ hdpos]
    have h1 := hinv.1 d hd0 hdlen hdpos (by omega)
    rw [hdc] at h1
    exact h1

theorem downInv_leaf (g : List Task) (pos endpos : ℕ) (item : Task)
    (hend : endpos = g.length) (hpos : pos < endpos)
    (hleaf : ¬ 2 * pos + 1 < endpos) (hinv : downInv g pos) :
    upInv (g.set pos item) pos := by
  constructor
  · intro j hj0 hjlen hjp
    rw [List.length_set] at hjlen
    have hpj : hpParent j ≠ pos := by
      intro hpj
      rcases hpParent_child hj0 hpj with rfl | rfl <;> omega
    rw [getD_set_ne _ _ _ (Ne.symm hjp), getD_set_ne _ _ _ (Ne.symm hpj)]
    exact hinv.1 j hj0 hjlen hjp hpj
  · intro hp0 c hclen hcp
    exfalso
    rw [List.length_set] at hclen
    have hc0 : 0 < c := by
      rcases Nat.eq_zero_or_pos c with rfl | h'
      · have : hpParent 0 = 0 := rfl
        omega
      · exact h'
    rcases hpParent_child hc0 hcp with rfl | rfl <;> omega

theorem down_main (fuel : ℕ) (g : List Task) (pos endpos : ℕ) (item : Task)
    (hend : endpos = g.length) (hfuel : endpos ≤ fuel + pos) (hpos : pos < endpos)
    (hinv : downInv g pos) :
    heapInv (siftupF fuel g 0 pos endpos item) := by
  induction fuel generalizing g pos with
  | zero => exact absurd hpos (by omega)
  | succ n ih =>
    simp only [siftupF]
    split
    · next hchild =>
      obtain ⟨hb1, hb2, hb3⟩ := siftupNext_bounds g pos endpos hchild
      exact ih _ _ (by simp [hend]) (by omega) hb3
        (downInv_step g pos endpos hend (hend ▸ hpos) hchild hinv)
    · next hchild =>
      apply up_main pos _ pos item le_rfl (by simp; omega)
      rw [List.set_set]
      exact downInv_leaf g pos endpos item hend hpos hchild hinv

theorem heappop_heapInv (t : Task) (rest : List Task)
    (hinv : heapInv (t :: rest)) : heapInv (heappop (t :: rest)).2 := by
  cases rest with
  | nil =>
    intro j hj0 hjlen
    simp [heappop] at hjlen
  | cons b tl =>
    rw [heappop_cons₂]
    unfold siftup
    have hlen : 0 < ((t :: b :: tl).dropLast.set 0
        ((t :: b :: tl).getLastD default)).length := by
      rw [List.length_set, List.length_dropLast]
      simp
    apply down_main _ _ _ _ _ (by simp) (by omega) hlen
    constructor
    · intro j hj0 hjlen hj0' hpj0
      rw [List.length_set, List.length_dropLast] at hjlen
      have hjlt : j < (t :: b :: tl).dropLast.length := by
        rw [List.length_dropLast]
        exact hjlen
      have hplt : hpParent j < (t :: b :: tl).dropLast.length :=
        lt_trans (hpParent_lt hj0) hjlt
      rw [getD_set_ne _ _ _ (Ne.symm hj0'), getD_set_ne _ _ _ (Ne.symm hpj0),
        getD_dropLast _ _ _ hjlt, getD_dropLast _ _ _ hplt]
      exact hinv j hj0 (by simp at hjlt ⊢; omega)
    · intro h0
      exact absurd h0 (lt_irrefl 0)

/-! ### Trace bookkeeping lemmas -/

theorem neutIds_append (l₁ l₂ : List Event) :
    neutIds (l₁ ++ l₂) = neutIds l₁ ++ neutIds l₂ :=
  List.filterMap_append l₁ l₂ _

theorem execDues_append (l₁ l₂ : List Event) :
    execDues (l₁ ++ l₂) = execDues l₁ ++ execDues l₂ :=
  List.filterMap_append l₁ l₂ _

theorem neutIds_neut (i : ℕ) (t due : ℚ) :
    neutIds [Event.neut i t due] = [i] := rfl

theorem execDues_neut (i : ℕ) (t due : ℚ) :
    execDues [Event.neut i t due] = [due] := rfl

theorem neutIds_lysis (i : ℕ) (t : ℚ) : neutIds [Event.lysis i t] = [] := rfl

theorem execDues_lysis (i : ℕ) (t : ℚ) : execDues [Event.lysis i t] = [] := rfl

theorem neutIds_delay (m : ℚ) (dbg : Bool) : neutIds (delay m dbg) = [] := by
  cases dbg <;> rfl

theorem execDues_delay (m : ℚ) (dbg : Bool) : execDues (delay m dbg) = [] := by
  cases dbg <;> rfl

theorem lysisCount_append (l₁ l₂ : List Event) (j : ℕ) :
    lysisCount (l₁ ++ l₂) j = lysisCount l₁ j + lysisCount l₂ j :=
  List.countP_append _ l₁ l₂

theorem lysisCount_neut (i : ℕ) (t due : ℚ) (j : ℕ) :
    lysisCount [Event.neut i t due] j = 0 := rfl

theorem lysisCount_lysis (i : ℕ) (t : ℚ) (j : ℕ) :
    lysisCount [Event.lysis i t] j = if i = j then 1 else 0 := by
  simp [lysisCount, List.countP_singleton]

theorem lysisCount_delay (m : ℚ) (dbg : Bool) (j : ℕ) :
    lysisCount (delay m dbg) j = 0 := by
  cases dbg <;> rfl

theorem delay_no_lysis (m : ℚ) (dbg : Bool) :
    ∀ e ∈ delay m dbg, isLysisEvent e = false := by
  cases dbg <;>
    · intro e he
      simp [delay] at he
      rcases he with rfl | rfl | rfl <;> rfl

theorem delay_no_neut (m : ℚ) (dbg : Bool) :
    ∀ e ∈ delay m dbg, ∀ j td due, e ≠ Event.neut j td due := by
  cases dbg <;>
    · intro e he
      simp [delay] at he
      rcases he with rfl | rfl | rfl <;> intro j td due <;> simp

/-! ### The run invariants -/

theorem queue_ids_nodup {q : List Task} {X : Multiset ℕ} {i : ℕ}
    (h : (↑(q.map Task.sample_id) : Multiset ℕ) + X = ↑(List.range i)) :
    (q.map Task.sample_id).Nodup := by
  rw [← Multiset.coe_nodup]
  have hr : ((List.range i : List ℕ) : Multiset ℕ).Nodup := by
    rw [Multiset.coe_nodup]
    exact List.nodup_range i
  refine Multiset.nodup_of_le ?_ hr
  rw [← h]
  exact Multiset.le_add_right _ _

/-- The invariant maintained through the final drain (phase 2), with `N`
the total number of samples.  It records: the queue is a binary heap of
neutralization tasks; queue ids plus already-executed neutralization ids
make up `range N` exactly; every sample below `N` has exactly one lysis
event; executed due times are non-decreasing in trace order and no larger
than anything still queued; in non-debug runs no neutralization ran before
its due time; all queue snapshots are duplicate-free per sample; the push
log is exactly `range N` in order; pops plus queue make `range N`; at each
recorded lysis instant no strictly-due task was queued; and every recorded
wait was for `⌈remaining⌉` seconds. -/
structure Inv2 (cfg : Config) (N : ℕ) (s : SchedState) : Prop where
  hheap : heapInv s.queue
  hact : ∀ x ∈ s.queue, x.action = "add_neutralization"
  hms : (↑(s.queue.map Task.sample_id) : Multiset ℕ) + ↑(neutIds s.trace) =
    (↑(List.range N) : Multiset ℕ)
  hlys : ∀ j, lysisCount s.trace j = if j < N then 1 else 0
  hsorted : List.Pairwise (· ≤ ·) (execDues s.trace)
  hcross : ∀ e ∈ execDues s.trace, ∀ x ∈ s.queue, e ≤ x.time_to_execute
  hok : cfg.debug = false → ∀ j td due, Event.neut j td due ∈ s.trace → due ≤ td
  hqlog : ∀ q ∈ s.qlog, (q.map Task.sample_id).Nodup
  hpush : s.pushLog.map Task.sample_id = List.range N
  hpoppush : (↑(s.popLog.map Task.sample_id) : Multiset ℕ) +
    ↑(s.queue.map Task.sample_id) = (↑(List.range N) : Multiset ℕ)
  hpre : ∀ pr ∈ s.preLysis, ∀ t : Task, pr.2.head? = some t →
    ¬ t.time_to_execute < pr.1
  hwait : ∀ rm ∈ s.waitLog, rm.2 * 60 = ((⌈rm.1⌉ : ℤ) : ℚ)

/-- The invariant maintained through the interleaved issue loop (phase 1),
after `i` samples have been processed: `Inv2` at stage `i`, plus: every
executed due time lies strictly in the past, and no blocking delay has
been emitted. -/
structure Inv1 (cfg : Config) (i : ℕ) (s : SchedState) : Prop where
  base : Inv2 cfg i s
  hnow : ∀ e ∈ execDues s.trace, e < s.now
  hnodelay : ∀ ev ∈ s.trace, isDelayEvent ev = false

theorem Inv2_bumpClock (cfg : Config) (N : ℕ) (adv : ℕ → ℚ) (s : SchedState)
    (h : Inv2 cfg N s) : Inv2 cfg N (bumpClock adv s) :=
  ⟨h.hheap, h.hact, h.hms, h.hlys, h.hsorted, h.hcross, h.hok, h.hqlog,
    h.hpush, h.hpoppush, h.hpre, h.hwait⟩

theorem Inv1_bumpClock (cfg : Config) (i : ℕ) (adv : ℕ → ℚ) (s : SchedState)
    (hadv : ∀ k, 0 ≤ adv k) (h : Inv1 cfg i s) : Inv1 cfg i (bumpClock adv s) := by
  refine ⟨Inv2_bumpClock cfg i adv s h.base, ?_, h.hnodelay⟩
  intro e he
  have : s.now ≤ (bumpClock adv s).now := by
    simp only [bumpClock]
    exact le_add_of_nonneg_right (hadv _)
  exact lt_of_lt_of_le (h.hnow e he) this

theorem drainPop_eq (s : SchedState) (t : Task) (rest : List Task)
    (hq : s.queue = t :: rest) (hact : t.action = "add_neutralization") :
    drainPop s = { s with
      queue := (heappop (t :: rest)).2,
      trace := s.trace ++ [Event.neut t.sample_id s.now t.time_to_execute],
      qlog := s.qlog ++ [(heappop (t :: rest)).2],
      popLog := s.popLog ++ [t] } := by
  unfold drainPop
  rw [hq, heappop_fst, hact]
  simp

theorem Inv2_drainPop (cfg : Config) (N : ℕ) (s : SchedState) (t : Task)
    (rest : List Task) (hq : s.queue = t :: rest)
    (hdue : cfg.debug = false → t.time_to_execute ≤ s.now)
    (h : Inv2 cfg N s) : Inv2 cfg N (drainPop s) := by
  have hact := h.hact t (by rw [hq]; exact List.mem_cons_self t rest)
  rw [drainPop_eq s t rest hq hact]
  have hmsq : ((t :: rest : List Task) : Multiset Task) =
      t ::ₘ (((heappop (t :: rest)).2 : List Task) : Multiset Task) := by
    have h' := heappop_ms t rest
    rwa [heappop_fst] at h'
  have hmsids : (((t :: rest).map Task.sample_id : List ℕ) : Multiset ℕ) =
      t.sample_id ::ₘ ↑(((heappop (t :: rest)).2).map Task.sample_id) := by
    have h' := congrArg (Multiset.map Task.sample_id) hmsq
    simpa [Multiset.map_coe, Multiset.map_cons] using h'
  have hmem : ∀ x ∈ (heappop (t :: rest)).2, x ∈ s.queue := by
    rw [hq]
    exact fun x hx => heappop_mem t rest hx
  have hmin : ∀ x ∈ s.queue, t.time_to_execute ≤ x.time_to_execute := by
    rw [hq]
    exact fun x hx => heapInv_head_le t rest (hq ▸ h.hheap) hx
  have hheap' : heapInv (heappop (t :: rest)).2 :=
    heappop_heapInv t rest (hq ▸ h.hheap)
  have hmsold := h.hms
  rw [hq, hmsids] at hmsold
  have hpopold := h.hpoppush
  rw [hq, hmsids] at hpopold
  refine ⟨hheap', ?_, ?_, ?_, ?_, ?_, ?_, ?_, ?_, ?_, ?_, ?_⟩
  · exact fun x hx => h.hact x (hmem x hx)
  · show (↑(((heappop (t :: rest)).2).map Task.sample_id) : Multiset ℕ) +
      ↑(neutIds (s.trace ++ [Event.neut t.sample_id s.now t.time_to_execute])) =
      (↑(List.range N) : Multiset ℕ)
    rw [neutIds_append, neutIds_neut, ← Multiset.coe_add, Multiset.coe_singleton,
      ← hmsold, ← Multiset.singleton_add]
    abel
  · intro j
    show lysisCount (s.trace ++ [Event.neut t.sample_id s.now t.time_to_execute]) j = _
    rw [lysisCount_append, lysisCount_neut]
    simpa using h.hlys j
  · show List.Pairwise (· ≤ ·)
      (execDues (s.trace ++ [Event.neut t.sample_id s.now t.time_to_execute]))
    rw [execDues_append, execDues_neut]
    rw [List.pairwise_append]
    refine ⟨h.hsorted, List.pairwise_singleton _ _, ?_⟩
    intro a ha b hb
    rw [List.mem_singleton] at hb
    subst hb
    exact h.hcross a ha t (by rw [hq]; exact List.mem_cons_self t rest)
  · intro e he x hx
    show e ≤ x.time_to_execute
    rw [execDues_append, execDues_neut, List.mem_append, List.mem_singleton] at he
    rcases he with he | rfl
    · exact h.hcross e he x (hmem x hx)
    · exact le_trans (hmin x (hmem x hx)) (le_refl _)
  · intro hdbg j td due hev
    rw [List.mem_append, List.mem_singleton] at hev
    rcases hev with hev | hev
    · exact h.hok hdbg j td due hev
    · injection hev with h1 h2 h3
      subst h2
      subst h3
      exact hdue hdbg
  · intro q hqq
    rw [List.mem_append, List.mem_singleton] at hqq
    rcases hqq with hqq | rfl
    · exact h.hqlog q hqq
    · exact queue_ids_nodup
        (X := (↑(neutIds s.trace) : Multiset ℕ) + {t.sample_id})
        (by rw [← hmsold, ← Multiset.singleton_add]
            abel)
  · exact h.hpush
  · show (↑((s.popLog ++ [t]).map Task.sample_id) : Multiset ℕ) +
      ↑(((heappop (t :: rest)).2).map Task.sample_id) = (↑(List.range N) : Multiset ℕ)
    rw [List.map_append, ← Multiset.coe_add,
      show List.map Task.sample_id [t] = [t.sample_id] from rfl,
      Multiset.coe_singleton, ← hpopold, ← Multiset.singleton_add]
    abel
  · exact h.hpre
  · exact h.hwait

theorem Inv1_drainPop (cfg : Config) (i : ℕ) (s : SchedState) (t : Task)
    (rest : List Task) (hq : s.queue = t :: rest)
    (hdue : t.time_to_execute < s.now) (h : Inv1 cfg i s) :
    Inv1 cfg i (drainPop s) := by
  have hact := h.base.hact t (by rw [hq]; exact List.mem_cons_self t rest)
  refine ⟨Inv2_drainPop cfg i s t rest hq (fun _ => le_of_lt hdue) h.base, ?_, ?_⟩
  · rw [drainPop_eq s t rest hq hact]
    intro e he
    show e < s.now
    rw [execDues_append, execDues_neut, List.mem_append, List.mem_singleton] at he
    rcases he with he | rfl
    · exact h.hnow e he
    · exact hdue
  · rw [drainPop_eq s t rest hq hact]
    intro ev hev
    rw [List.mem_append, List.mem_singleton] at hev
    rcases hev with hev | rfl
    · exact h.hnodelay ev hev
    · rfl

theorem waitMinutes_mul (t : Task) (n : ℚ) :
    waitMinutes t n * 60 = ((⌈t.time_to_execute - n⌉ : ℤ) : ℚ) := by
  unfold waitMinutes
  field_simp

theorem phase2Wait_now_ge (cfg : Config) (adv : ℕ → ℚ) (s₁ : SchedState)
    (t : Task) (hdbg : cfg.debug = false) :
    t.time_to_execute ≤ (phase2Wait cfg adv s₁ t).now := by
  show t.time_to_execute ≤ (bumpClock adv s₁).now +
    delayAdvance (waitMinutes t (bumpClock adv s₁).now) cfg.debug
  have hred : delayAdvance (waitMinutes t (bumpClock adv s₁).now) cfg.debug =
      max (waitMinutes t (bumpClock adv s₁).now * 60) 0 := by
    rw [hdbg]
    simp [delayAdvance]
  rw [hred, waitMinutes_mul]
  have h1 : t.time_to_execute - (bumpClock adv s₁).now ≤
      ((⌈t.time_to_execute - (bumpClock adv s₁).now⌉ : ℤ) : ℚ) := Int.le_ceil _
  have h2 := le_max_left
    ((⌈t.time_to_execute - (bumpClock adv s₁).now⌉ : ℤ) : ℚ) (0 : ℚ)
  linarith

theorem phase2Wait_trace (cfg : Config) (adv : ℕ → ℚ) (s₁ : SchedState)
    (t : Task) : (phase2Wait cfg adv s₁ t).trace =
      s₁.trace ++ delay (waitMinutes t (bumpClock adv s₁).now) cfg.debug := rfl

theorem phase2Wait_waitLog (cfg : Config) (adv : ℕ → ℚ) (s₁ : SchedState)
    (t : Task) : (phase2Wait cfg adv s₁ t).waitLog =
      s₁.waitLog ++ [(t.time_to_execute - (bumpClock adv s₁).now,
        waitMinutes t (bumpClock adv s₁).now)] := rfl

theorem Inv2_phase2Wait (cfg : Config) (N : ℕ) (adv : ℕ → ℚ) (s₁ : SchedState)
    (t : Task) (h : Inv2 cfg N s₁) : Inv2 cfg N (phase2Wait cfg adv s₁ t) := by
  refine ⟨h.hheap, h.hact, ?_, ?_, ?_, ?_, ?_, h.hqlog, h.hpush, h.hpoppush,
    h.hpre, ?_⟩
  · show (↑(s₁.queue.map Task.sample_id) : Multiset ℕ) + _ = _
    rw [phase2Wait_trace, neutIds_append, neutIds_delay, List.append_nil]
    exact h.hms
  · intro j
    rw [phase2Wait_trace, lysisCount_append, lysisCount_delay, Nat.add_zero,
      h.hlys j]
  · rw [phase2Wait_trace, execDues_append, execDues_delay, List.append_nil]
    exact h.hsorted
  · intro e he x hx
    rw [phase2Wait_trace, execDues_append, execDues_delay, List.append_nil] at he
    exact h.hcross e he x hx
  · intro hdbg j td due hev
    rw [phase2Wait_trace, List.mem_append] at hev
    rcases hev with hev | hev
    · exact h.hok hdbg j td due hev
    · exact absurd rfl (delay_no_neut _ _ _ hev j td due)
  · intro rm hrm
    rw [phase2Wait_waitLog, List.mem_append, List.mem_singleton] at hrm
    rcases hrm with hrm | rfl
    · exact h.hwait rm hrm
    · exact waitMinutes_mul t _

theorem ite_neut_no_lysis (t : Task) (now : ℚ) :
    ∀ e ∈ (if t.action = "add_neutralization"
        then [Event.neut t.sample_id now t.time_to_execute] else ([] : List Event)),
      isLysisEvent e = false := by
  split
  · intro e he
    rw [List.mem_singleton] at he
    subst he
    rfl
  · intro e he
    cases he

theorem ite_neut_no_delay (t : Task) (now : ℚ) :
    ∀ e ∈ (if t.action = "add_neutralization"
        then [Event.neut t.sample_id now t.time_to_execute] else ([] : List Event)),
      isDelayEvent e = false := by
  split
  · intro e he
    rw [List.mem_singleton] at he
    subst he
    rfl
  · intro e he
    cases he

/-! ### The phase-1 drain loop -/

theorem drainLoopF_Inv1 (cfg : Config) (adv : ℕ → ℚ) (hadv : ∀ k, 0 ≤ adv k)
    (i fuel : ℕ) :
    ∀ s, Inv1 cfg i s → Inv1 cfg i (drainLoopF adv fuel s) := by
  induction fuel with
  | zero =>
    intro s h
    simpa only [drainLoopF] using h
  | succ n ih =>
    intro s h
    rcases hq : s.queue with _ | ⟨t, rest⟩
    · simpa only [drainLoopF, hq] using h
    · simp only [drainLoopF, hq]
      split
      · next hdue =>
        exact ih _ (Inv1_drainPop cfg i (bumpClock adv s) t rest hq hdue
          (Inv1_bumpClock cfg i adv s hadv h))
      · exact Inv1_bumpClock cfg i adv s hadv h

theorem drainLoopF_post (adv : ℕ → ℚ) (fuel : ℕ) :
    ∀ s, s.queue.length ≤ fuel →
      ∀ t : Task, (drainLoopF adv fuel s).queue.head? = some t →
        ¬ t.time_to_execute < (drainLoopF adv fuel s).now := by
  induction fuel with
  | zero =>
    intro s hlen t ht
    have hq : s.queue = [] := List.length_eq_zero.1 (Nat.le_zero.1 hlen)
    simp only [drainLoopF] at ht
    rw [hq] at ht
    simp at ht
  | succ n ih =>
    intro s hlen
    rcases hq : s.queue with _ | ⟨t0, rest⟩
    · intro t ht
      simp only [drainLoopF, hq] at ht
      simp [hq] at ht
    · have hlen' : rest.length ≤ n := by
        rw [hq] at hlen
        simpa using hlen
      by_cases hdue : t0.time_to_execute < (bumpClock adv s).now
      · have hrw : drainLoopF adv (n + 1) s =
            drainLoopF adv n (drainPop (bumpClock adv s)) := by
          simp only [drainLoopF, hq]
          rw [if_pos hdue]
        rw [hrw]
        apply ih
        show ((heappop (bumpClock adv s).queue).2).length ≤ n
        rw [show (bumpClock adv s).queue = t0 :: rest from hq, heappop_length]
        exact hlen'
      · have hrw : drainLoopF adv (n + 1) s = bumpClock adv s := by
          simp only [drainLoopF, hq]
          rw [if_neg hdue]
        rw [hrw]
        intro t ht
        have hteq : t = t0 := by
          rw [show (bumpClock adv s).queue = t0 :: rest from hq] at ht
          simpa using ht.symm
        subst hteq
        exact hdue

theorem drainLoopF_frame (adv : ℕ → ℚ) (fuel : ℕ) :
    ∀ s, ∃ t₂ : List Event, (drainLoopF adv fuel s).trace = s.trace ++ t₂ ∧
      (∀ e ∈ t₂, isLysisEvent e = false ∧ isDelayEvent e = false) ∧
      ∃ p₂ : List Task, (drainLoopF adv fuel s).popLog = s.popLog ++ p₂ := by
  induction fuel with
  | zero =>
    intro s
    exact ⟨[], by simp [drainLoopF], by simp, [], by simp [drainLoopF]⟩
  | succ n ih =>
    intro s
    rcases hq : s.queue with _ | ⟨t, rest⟩
    · exact ⟨[], by simp [drainLoopF, hq], by simp, [], by simp [drainLoopF, hq]⟩
    · simp only [drainLoopF, hq]
      split
      · obtain ⟨t₂, htr, hev, p₂, hpl⟩ := ih (drainPop (bumpClock adv s))
        refine ⟨(if (heappop (bumpClock adv s).queue).1.action = "add_neutralization"
            then [Event.neut (heappop (bumpClock adv s).queue).1.sample_id
              (bumpClock adv s).now
              (heappop (bumpClock adv s).queue).1.time_to_execute]
            else []) ++ t₂, ?_, ?_, ?_⟩
        · rw [htr]
          show (s.trace ++ _) ++ t₂ = _
          rw [List.append_assoc]
        · intro e he
          rw [List.mem_append] at he
          rcases he with he | he
          · exact ⟨ite_neut_no_lysis _ _ e he, ite_neut_no_delay _ _ e he⟩
          · exact hev e he
        · refine ⟨[(heappop (bumpClock adv s).queue).1] ++ p₂, ?_⟩
          rw [hpl]
          show (s.popLog ++ _) ++ p₂ = _
          rw [List.append_assoc]
      · exact ⟨[], by simp [bumpClock], by simp, [], by simp [bumpClock]⟩

/-! ### The phase-2 final drain loop -/

theorem phase2F_Inv2 (cfg : Config) (N : ℕ) (adv : ℕ → ℚ) (fuel : ℕ) :
    ∀ s, Inv2 cfg N s → Inv2 cfg N (phase2F cfg adv fuel s) := by
  induction fuel with
  | zero =>
    intro s h
    simpa only [phase2F] using h
  | succ n ih =>
    intro s h
    rcases hq : s.queue with _ | ⟨t, rest⟩
    · simpa only [phase2F, hq] using h
    · simp only [phase2F, hq]
      split
      · next hdue =>
        refine ih _ (Inv2_drainPop cfg N _ t rest hq (fun hdbg => ?_)
          (Inv2_phase2Wait cfg N adv _ t (Inv2_bumpClock cfg N adv s h)))
        exact phase2Wait_now_ge cfg adv (bumpClock adv s) t hdbg
      · next hdue =>
        exact ih _ (Inv2_drainPop cfg N (bumpClock adv s) t rest hq
          (fun _ => not_lt.1 hdue) (Inv2_bumpClock cfg N adv s h))

theorem phase2F_queue_nil (cfg : Config) (adv : ℕ → ℚ) (fuel : ℕ) :
    ∀ s, s.queue.length ≤ fuel → (phase2F cfg adv fuel s).queue = [] := by
  induction fuel with
  | zero =>
    intro s hlen
    simp only [phase2F]
    exact List.length_eq_zero.1 (Nat.le_zero.1 hlen)
  | succ n ih =>
    intro s hlen
    rcases hq : s.queue with _ | ⟨t, rest⟩
    · simp only [phase2F, hq]
    · have hlen' : rest.length ≤ n := by
        rw [hq] at hlen
        simpa using hlen
      simp only [phase2F, hq]
      split
      · apply ih
        show ((heappop (phase2Wait cfg adv (bumpClock adv s) t).queue).2).length ≤ n
        rw [show (phase2Wait cfg adv (bumpClock adv s) t).queue = t :: rest from hq,
          heappop_length]
        exact hlen'
      · apply ih
        show ((heappop (bumpClock adv s).queue).2).length ≤ n
        rw [show (bumpClock adv s).queue = t :: rest from hq, heappop_length]
        exact hlen'

theorem phase2F_frame (cfg : Config) (adv : ℕ → ℚ) (fuel : ℕ) :
    ∀ s, ∃ t₂ : List Event, (phase2F cfg adv fuel s).trace = s.trace ++ t₂ ∧
      (∀ e ∈ t₂, isLysisEvent e = false) ∧
      (phase2F cfg adv fuel s).preLysis = s.preLysis ∧
      (phase2F cfg adv fuel s).pushLog = s.pushLog := by
  induction fuel with
  | zero =>
    intro s
    exact ⟨[], by simp [phase2F], by simp, by simp [phase2F], by simp [phase2F]⟩
  | succ n ih =>
    intro s
    rcases hq : s.queue with _ | ⟨t, rest⟩
    · exact ⟨[], by simp [phase2F, hq], by simp, by simp [phase2F, hq],
        by simp [phase2F, hq]⟩
    · simp only [phase2F, hq]
      split
      · obtain ⟨t₂, htr, hev, hpre, hpush⟩ :=
          ih (drainPop (phase2Wait cfg adv (bumpClock adv s) t))
        refine ⟨delay (waitMinutes t (bumpClock adv (bumpClock adv s)).now) cfg.debug
            ++ ((if (heappop (phase2Wait cfg adv (bumpClock adv s) t).queue).1.action
                = "add_neutralization"
              then [Event.neut
                (heappop (phase2Wait cfg adv (bumpClock adv s) t).queue).1.sample_id
                (phase2Wait cfg adv (bumpClock adv s) t).now
                (heappop (phase2Wait cfg adv (bumpClock adv s) t).queue).1.time_to_execute]
              else []) ++ t₂), ?_, ?_, ?_, ?_⟩
        · rw [htr]
          show ((s.trace ++ _) ++ _) ++ t₂ = _
          rw [List.append_assoc, List.append_assoc]
        · intro e he
          rw [List.mem_append] at he
          rcases he with he | he
          · exact delay_no_lysis _ _ e he
          · rw [List.mem_append] at he
            rcases he with he | he
            · exact ite_neut_no_lysis _ _ e he
            · exact hev e he
        · exact hpre
        · exact hpush
      · obtain ⟨t₂, htr, hev, hpre, hpush⟩ := ih (drainPop (bumpClock adv s))
        refine ⟨(if (heappop (bumpClock adv s).queue).1.action = "add_neutralization"
            then [Event.neut (heappop (bumpClock adv s).queue).1.sample_id
              (bumpClock adv s).now
              (heappop (bumpClock adv s).queue).1.time_to_execute]
            else []) ++ t₂, ?_, ?_, ?_, ?_⟩
        · rw [htr]
          show (s.trace ++ _) ++ t₂ = _
          rw [List.append_assoc]
        · intro e he
          rw [List.mem_append] at he
          rcases he with he | he
          · exact ite_neut_no_lysis _ _ e he
          · exact hev e he
        · exact hpre
        · exact hpush

/-! ### Phase 1: the interleaved issue loop -/

theorem initState_Inv1 (cfg : Config) : Inv1 cfg 0 initState := by
  refine ⟨⟨?_, ?_, ?_, ?_, ?_, ?_, ?_, ?_, ?_, ?_, ?_, ?_⟩, ?_, ?_⟩
  · intro j hj0 hjlen
    simp [initState] at hjlen
  · intro x hx
    simp [initState] at hx
  · rfl
  · intro j
    rfl
  · exact List.Pairwise.nil
  · intro e he
    simp [initState, execDues] at he
  · intro _ j td due hev
    simp [initState] at hev
  · intro q hqq
    simp [initState] at hqq
    subst hqq
    simp
  · rfl
  · rfl
  · intro pr hpr
    simp [initState] at hpr
  · intro rm hrm
    simp [initState] at hrm
  · intro e he
    simp [initState, execDues] at he
  · intro ev hev
    simp [initState] at hev

/-- The task pushed by the phase-1 body for sample `i` (line 292-293):
scheduled `delay_lysis` minutes after the clock read following the lysis
transfer. -/
def phase1Task (cfg : Config) (adv : ℕ → ℚ) (s : SchedState) (i : ℕ) : Task :=
  newTask cfg (bumpClock adv (issueLysis (drainLoop adv s) i)) i

theorem phase1Task_due (cfg : Config) (adv : ℕ → ℚ) (s : SchedState) (i : ℕ) :
    (phase1Task cfg adv s i).time_to_execute =
      (drainLoop adv s).now + adv (drainLoop adv s).reads +
        cfg.delay_lysis * 60 := rfl

theorem phase1Body_eq (cfg : Config) (adv : ℕ → ℚ) (s : SchedState) (i : ℕ) :
    phase1Body cfg adv s i = { drainLoop adv s with
      queue := heappush (drainLoop adv s).queue (phase1Task cfg adv s i),
      now := (drainLoop adv s).now + adv (drainLoop adv s).reads,
      reads := (drainLoop adv s).reads + 1,
      trace := (drainLoop adv s).trace ++ [Event.lysis i (drainLoop adv s).now],
      qlog := (drainLoop adv s).qlog ++
        [heappush (drainLoop adv s).queue (phase1Task cfg adv s i)],
      pushLog := (drainLoop adv s).pushLog ++ [phase1Task cfg adv s i],
      preLysis := (drainLoop adv s).preLysis ++
        [((drainLoop adv s).now, (drainLoop adv s).queue)] } := rfl

theorem Inv1_phase1Body (cfg : Config) (adv : ℕ → ℚ) (hadv : ∀ k, 0 ≤ adv k)
    (i : ℕ) (s : SchedState) (h : Inv1 cfg i s) :
    Inv1 cfg (i + 1) (phase1Body cfg adv s i) := by
  have h₁ : Inv1 cfg i (drainLoop adv s) := drainLoopF_Inv1 cfg adv hadv i _ s h
  have hpost : ∀ t : Task, (drainLoop adv s).queue.head? = some t →
      ¬ t.time_to_execute < (drainLoop adv s).now := drainLoopF_post adv _ s le_rfl
  have hb := h₁.base
  rw [phase1Body_eq]
  have hnow_le : (drainLoop adv s).now ≤
      (drainLoop adv s).now + adv (drainLoop adv s).reads :=
    le_add_of_nonneg_right (hadv _)
  have hpush_ms : (↑((heappush (drainLoop adv s).queue
        (phase1Task cfg adv s i)).map Task.sample_id) : Multiset ℕ) =
      i ::ₘ ↑((drainLoop adv s).queue.map Task.sample_id) := by
    have h' := congrArg (Multiset.map Task.sample_id)
      (heappush_ms (drainLoop adv s).queue (phase1Task cfg adv s i))
    simpa [Multiset.map_coe, Multiset.map_cons, phase1Task, newTask] using h'
  have hpush_mem : ∀ x ∈ heappush (drainLoop adv s).queue (phase1Task cfg adv s i),
      x = phase1Task cfg adv s i ∨ x ∈ (drainLoop adv s).queue := by
    intro x hx
    have hx' : x ∈ ((heappush (drainLoop adv s).queue (phase1Task cfg adv s i) :
        List Task) : Multiset Task) := by exact_mod_cast hx
    rw [heappush_ms] at hx'
    rcases Multiset.mem_cons.1 hx' with h' | h'
    · exact Or.inl h'
    · exact Or.inr (by exact_mod_cast h')
  have hi_nin : i ∉ ((drainLoop adv s).queue.map Task.sample_id : List ℕ) := by
    intro hmem
    have hc := congrArg (Multiset.count i) hb.hms
    rw [Multiset.count_add] at hc
    have h0 : Multiset.count i (↑(List.range i) : Multiset ℕ) = 0 := by
      rw [Multiset.coe_count, List.count_eq_zero]
      simp
    rw [h0] at hc
    have hpos : 0 < Multiset.count i
        (↑((drainLoop adv s).queue.map Task.sample_id) : Multiset ℕ) :=
      Multiset.count_pos.2 (by exact_mod_cast hmem)
    omega
  refine ⟨⟨?_, ?_, ?_, ?_, ?_, ?_, ?_, ?_, ?_, ?_, ?_, ?_⟩, ?_, ?_⟩
  · exact heappush_heapInv _ _ hb.hheap
  · intro x hx
    rcases hpush_mem x hx with rfl | hx'
    · rfl
    · exact hb.hact x hx'
  · show (↑((heappush (drainLoop adv s).queue (phase1Task cfg adv s i)).map
        Task.sample_id) : Multiset ℕ) +
      ↑(neutIds ((drainLoop adv s).trace ++ [Event.lysis i (drainLoop adv s).now]))
      = (↑(List.range (i + 1)) : Multiset ℕ)
    rw [neutIds_append, neutIds_lysis, List.append_nil, hpush_ms,
      List.range_succ, ← Multiset.coe_add, Multiset.coe_singleton,
      ← hb.hms, ← Multiset.singleton_add]
    abel
  · intro j
    show lysisCount ((drainLoop adv s).trace ++
      [Event.lysis i (drainLoop adv s).now]) j = _
    rw [lysisCount_append, lysisCount_lysis, hb.hlys j]
    split_ifs <;> omega
  · show List.Pairwise (· ≤ ·)
      (execDues ((drainLoop adv s).trace ++ [Event.lysis i (drainLoop adv s).now]))
    rw [execDues_append, execDues_lysis, List.append_nil]
    exact hb.hsorted
  · intro e he x hx
    rw [show execDues ((drainLoop adv s).trace ++
        [Event.lysis i (drainLoop adv s).now]) = execDues (drainLoop adv s).trace by
      rw [execDues_append, execDues_lysis, List.append_nil]] at he
    rcases hpush_mem x hx with rfl | hx'
    · show e ≤ (phase1Task cfg adv s i).time_to_execute
      rw [phase1Task_due]
      have h2 := h₁.hnow e he
      have h3 := hadv (drainLoop adv s).reads
      have h4 : (0:ℚ) ≤ (cfg.delay_lysis : ℚ) * 60 := by positivity
      linarith
    · exact hb.hcross e he x hx'
  · intro hdbg j td due hev
    rw [List.mem_append, List.mem_singleton] at hev
    rcases hev with hev | hev
    · exact hb.hok hdbg j td due hev
    · simp at hev
  · intro q hqq
    rw [List.mem_append, List.mem_singleton] at hqq
    rcases hqq with hqq | rfl
    · exact hb.hqlog q hqq
    · rw [← Multiset.coe_nodup, hpush_ms, Multiset.nodup_cons]
      refine ⟨by exact_mod_cast hi_nin, ?_⟩
      rw [Multiset.coe_nodup]
      exact queue_ids_nodup hb.hms
  · show ((drainLoop adv s).pushLog ++ [phase1Task cfg adv s i]).map Task.sample_id
      = List.range (i + 1)
    rw [List.map_append, hb.hpush, List.range_succ]
    rfl
  · show (↑((drainLoop adv s).popLog.map Task.sample_id) : Multiset ℕ) +
      ↑((heappush (drainLoop adv s).queue (phase1Task cfg adv s i)).map
        Task.sample_id) = (↑(List.range (i + 1)) : Multiset ℕ)
    rw [hpush_ms, List.range_succ, ← Multiset.coe_add, Multiset.coe_singleton,
      ← hb.hpoppush, ← Multiset.singleton_add]
    abel
  · intro pr hpr
    rw [List.mem_append, List.mem_singleton] at hpr
    rcases hpr with hpr | rfl
    · exact hb.hpre pr hpr
    · intro t ht
      exact hpost t ht
  · exact hb.hwait
  · intro e he
    rw [show execDues ((drainLoop adv s).trace ++
        [Event.lysis i (drainLoop adv s).now]) = execDues (drainLoop adv s).trace by
      rw [execDues_append, execDues_lysis, List.append_nil]] at he
    show e < (drainLoop adv s).now + adv (drainLoop adv s).reads
    exact lt_of_lt_of_le (h₁.hnow e he) hnow_le
  · intro ev hev
    rw [List.mem_append, List.mem_singleton] at hev
    rcases hev with hev | rfl
    · exact h₁.hnodelay ev hev
    · rfl

theorem phase1_Inv1 (cfg : Config) (adv : ℕ → ℚ) (hadv : ∀ k, 0 ≤ adv k) :
    ∀ i, Inv1 cfg i ((List.range i).foldl (phase1Body cfg adv) initState) := by
  intro i
  induction i with
  | zero => exact initState_Inv1 cfg
  | succ n ih =>
    rw [List.range_succ, List.foldl_append]
    exact Inv1_phase1Body cfg adv hadv n _ ih

theorem phase1_Inv (cfg : Config) (adv : ℕ → ℚ) (hadv : ∀ k, 0 ≤ adv k) :
    Inv1 cfg cfg.sample_count (phase1 cfg adv) :=
  phase1_Inv1 cfg adv hadv _

theorem run_Inv2 (cfg : Config) (adv : ℕ → ℚ) (hadv : ∀ k, 0 ≤ adv k) :
    Inv2 cfg cfg.sample_count (run cfg adv) :=
  phase2F_Inv2 cfg cfg.sample_count adv _ _ (phase1_Inv cfg adv hadv).base

theorem run_queue_nil (cfg : Config) (adv : ℕ → ℚ) :
    (run cfg adv).queue = [] :=
  phase2F_queue_nil cfg adv _ _ le_rfl

/-! ### The claims

The concrete witness/counterexample computations below evaluate `run` on
explicit inputs inside `decide`; the reducibility override only re-enables
kernel evaluation of the rational arithmetic involved. -/

set_option allowUnsafeReducibility true

attribute [local semireducible] Rat.add Rat.mul Rat.div Rat.sub Rat.normalize Rat.inv Nat.gcd

/-- C1: for every valid `sample_count` N in 1..24 (under any monotone
clock), after the scheduling core completes — the interleaved issue loop
followed by the final drain — every sample `i < N` has received exactly
one immediate (lysis) action and exactly one deferred (neutralization)
action, and the task queue is empty. -/
theorem C1_every_sample_once (cfg : Config) (adv : ℕ → ℚ)
    (hadv : ∀ k, 0 ≤ adv k) (hN1 : 1 ≤ cfg.sample_count)
    (hN24 : cfg.sample_count ≤ 24) :
    (run cfg adv).queue = [] ∧
    ∀ i < cfg.sample_count,
      lysisCount (run cfg adv).trace i = 1 ∧
      neutCount (run cfg adv).trace i = 1 := by
  have h2 := run_Inv2 cfg adv hadv
  have hq := run_queue_nil cfg adv
  refine ⟨hq, ?_⟩
  intro i hi
  constructor
  · rw [h2.hlys i, if_pos hi]
  · have hms := h2.hms
    rw [hq] at hms
    simp only [List.map_nil] at hms
    have hms' : (↑(neutIds (run cfg adv).trace) : Multiset ℕ) =
        (↑(List.range cfg.sample_count) : Multiset ℕ) := by
      simpa using hms
    have hperm := Multiset.coe_eq_coe.1 hms'
    unfold neutCount
    rw [hperm.count_eq]
    exact List.count_eq_one_of_mem (List.nodup_range _) (List.mem_range.2 hi)

/-- Witness for C1 at `N = 2`, `delay_lysis = 1`, non-debug, stationary
clock. -/
theorem C1_witness :
    ((run ⟨2, 1, false⟩ (fun _ => 0)).queue = [] ∧
      ∀ i < 2, lysisCount (run ⟨2, 1, false⟩ (fun _ => 0)).trace i = 1 ∧
        neutCount (run ⟨2, 1, false⟩ (fun _ => 0)).trace i = 1) :=
  C1_every_sample_once ⟨2, 1, false⟩ (fun _ => 0) (fun _ => le_refl 0)
    (by norm_num) (by norm_num)

/-- C2: in non-debug runs, a neutralization task pushed with due time
`t + delay_lysis*60` is never executed before that due time: for every
neutralization event in the trace (whether executed by the phase-1 drain
or the phase-2 final drain), the recorded execution time is at least the
popped task's `time_to_execute`. -/
theorem C2_no_early_execution (cfg : Config) (adv : ℕ → ℚ)
    (hdbg : cfg.debug = false) (hadv : ∀ k, 0 ≤ adv k) :
    ∀ j td due, Event.neut j td due ∈ (run cfg adv).trace → due ≤ td :=
  (run_Inv2 cfg adv hadv).hok hdbg

/-- Witness for C2: the single-sample non-debug run executes its
neutralization exactly at its due time 180 s. -/
theorem C2_witness :
    Event.neut 0 180 180 ∈ (run ⟨1, 3, false⟩ (fun _ => 0)).trace ∧
      (180 : ℚ) ≤ 180 :=
  ⟨by decide, C2_no_early_execution ⟨1, 3, false⟩ (fun _ => 0) rfl
    (fun _ => le_refl 0) 0 180 180 (by decide)⟩

/-- C3 counterexample: the phase-2 wait is NOT the remaining time rounded
up to a multiple of 60 seconds.  With one sample, `delay_lysis = 3`
(task due at 180 s) and 89.5 s of elapsed time at the final drain's clock
reads, the remaining time is 90.5 s and the delay helper is invoked with
`91/60` minutes — i.e. 91 seconds, where the claim would require
120 seconds (90.5 rounded up to whole-minute granularity). -/
theorem C3_counterexample :
    delayMinutes (run ⟨1, 3, false⟩
      (fun n => if n = 1 then (179/2 : ℚ) else 0)).trace = [91/60] ∧
    (run ⟨1, 3, false⟩ (fun n => if n = 1 then (179/2 : ℚ) else 0)).waitLog =
      [(181/2, 91/60)] ∧
    (91/60 : ℚ) * 60 ≠ 60 * ⌈(181/2 : ℚ) / 60⌉ := by
  exact ⟨by decide, by decide, by decide⟩

/-- C3 amended: in the final drain, when the earliest task is still in
the future the wait passed to the delay primitive is the remaining time
`due_time - elapsed_time_now` rounded up to whole-SECOND granularity
(`⌈remaining⌉` seconds, passed as `⌈remaining⌉/60` minutes — the source's
`math.ceil(...)/60` is a correct seconds-to-minutes conversion, not
whole-minute rounding): every recorded wait `(remaining r, minutes m)`
satisfies `m * 60 = ⌈r⌉`, hence `r ≤ m * 60 < r + 1`. -/
theorem C3_wait_is_ceil_seconds (cfg : Config) (adv : ℕ → ℚ)
    (hadv : ∀ k, 0 ≤ adv k) :
    ∀ rm ∈ (run cfg adv).waitLog,
      rm.2 * 60 = ((⌈rm.1⌉ : ℤ) : ℚ) ∧
      rm.1 ≤ rm.2 * 60 ∧ rm.2 * 60 < rm.1 + 1 := by
  intro rm hrm
  have h := (run_Inv2 cfg adv hadv).hwait rm hrm
  refine ⟨h, ?_, ?_⟩
  · rw [h]
    exact Int.le_ceil _
  · rw [h]
    exact Int.ceil_lt_add_one _

/-- Witness for the amended C3, on the run of the counterexample. -/
theorem C3_witness :
    ((181/2 : ℚ), (91/60 : ℚ)) ∈ (run ⟨1, 3, false⟩
      (fun n => if n = 1 then (179/2 : ℚ) else 0)).waitLog ∧
    (91/60 : ℚ) * 60 = ((⌈(181/2 : ℚ)⌉ : ℤ) : ℚ) :=
  ⟨by decide,
    (C3_wait_is_ceil_seconds ⟨1, 3, false⟩
      (fun n => if n = 1 then (179/2 : ℚ) else 0)
      (fun k => by dsimp only; split <;> norm_num)
      (181/2, 91/60) (by decide)).1⟩

/-- C4 counterexample: equal due times are NOT executed in insertion
order.  With five samples, `delay_lysis = 1` and a stationary clock, all
five tasks are pushed with due time 60 in sample order `0,1,2,3,4`, but
they execute in order `0,2,4,1,3`: the task of sample 1 (pushed before
sample 2's) is executed after sample 2's — `heapq` with `Task.__lt__` has
no insertion-order tie-break. -/
theorem C4_counterexample :
    (run ⟨5, 1, false⟩ (fun _ => 0)).pushLog.map Task.sample_id =
      [0, 1, 2, 3, 4] ∧
    (∀ t ∈ (run ⟨5, 1, false⟩ (fun _ => 0)).pushLog,
      t.time_to_execute = 60) ∧
    neutIds (run ⟨5, 1, false⟩ (fun _ => 0)).trace = [0, 2, 4, 1, 3] := by
  exact ⟨by decide, by decide, by decide⟩

/-- C4 amended: tasks are executed in non-decreasing due-time order — for
two tasks with due times `t1 < t2`, the `t1` task is executed no later
than the `t2` task; equal due times are resolved by the heap's internal
order, not necessarily insertion order. -/
theorem C4_executed_in_due_order (cfg : Config) (adv : ℕ → ℚ)
    (hadv : ∀ k, 0 ≤ adv k) :
    List.Pairwise (· ≤ ·) (execDues (run cfg adv).trace) :=
  (run_Inv2 cfg adv hadv).hsorted

/-- Witness for the amended C4 on a concrete two-sample run. -/
theorem C4_witness :
    List.Pairwise (· ≤ ·) (execDues (run ⟨2, 1, false⟩ (fun _ => 0)).trace) :=
  C4_executed_in_due_order ⟨2, 1, false⟩ (fun _ => 0) (fun _ => le_refl 0)

/-- C5 counterexample: with "due" read as the spec's `due_time ≤ now`,
the drain-before-issue property fails.  With two samples, `delay_lysis=1`
and 60 s elapsing before sample 1's drain check, the recorded pre-issue
state for sample 1 is `(now = 60, queue = [task due 60])`: the earliest
queued task is due (60 ≤ 60) at the moment just before issuing sample
1's lysis action, yet the trace shows `lysis 1` before `neut 0` — the due
task was executed after, not strictly before, the immediate action. -/
theorem C5_counterexample :
    ((run ⟨2, 1, false⟩ (fun n => if n = 1 then (60 : ℚ) else 0)).preLysis)[1]? =
      some (60, [⟨60, "add_neutralization", 0⟩]) ∧
    ((60 : ℚ) ≤ 60) ∧
    (run ⟨2, 1, false⟩ (fun n => if n = 1 then (60 : ℚ) else 0)).trace =
      [Event.lysis 0 0, Event.lysis 1 60, Event.neut 0 60 60,
        Event.commentSkipped, Event.doDelay 1, Event.commentDelayBy 1,
        Event.neut 1 120 120] := by
  exact ⟨by decide, le_refl _, by decide⟩

/-- C5 amended: with "due" read strictly (`due_time < now`, the test the
drain loop actually performs), the property holds: at the instant just
before any sample's immediate action is issued, no strictly-due task
remains at the head of the queue — every task that was strictly due at a
drain check was executed before the immediate action. -/
theorem C5_no_strictly_due_at_issue (cfg : Config) (adv : ℕ → ℚ)
    (hadv : ∀ k, 0 ≤ adv k) :
    ∀ pr ∈ (run cfg adv).preLysis, ∀ t : Task,
      pr.2.head? = some t → ¬ t.time_to_execute < pr.1 :=
  (run_Inv2 cfg adv hadv).hpre

/-- Witness for the amended C5: sample 1's pre-issue state in a
stationary-clock run has head task due 60 at elapsed 0. -/
theorem C5_witness :
    ((0 : ℚ), [(⟨60, "add_neutralization", 0⟩ : Task)]) ∈
      (run ⟨2, 1, false⟩ (fun _ => 0)).preLysis ∧
    ¬ (60 : ℚ) < 0 :=
  ⟨by decide, C5_no_strictly_due_at_issue ⟨2, 1, false⟩ (fun _ => 0)
    (fun _ => le_refl 0) (0, [⟨60, "add_neutralization", 0⟩]) (by decide)
    ⟨60, "add_neutralization", 0⟩ rfl⟩

/-- C6 counterexample: the phase-1 drain-eligibility test is NOT
`due_time ≤ now`.  With `delay_lysis = 2` and the clock at exactly 120 s
at sample 1's drain check, the task due at exactly 120 satisfies
`due_time ≤ now` but is not popped: it is still queued at the pre-issue
instant, and its neutralization appears in the trace only after
`lysis 1`. -/
theorem C6_counterexample :
    ((run ⟨2, 2, false⟩ (fun n => if n = 1 then (120 : ℚ) else 0)).preLysis)[1]? =
      some (120, [⟨120, "add_neutralization", 0⟩]) ∧
    (run ⟨2, 2, false⟩ (fun n => if n = 1 then (120 : ℚ) else 0)).trace =
      [Event.lysis 0 0, Event.lysis 1 120, Event.neut 0 120 120,
        Event.commentSkipped, Event.doDelay 2, Event.commentDelayBy 2,
        Event.neut 1 240 240] := by
  exact ⟨by decide, by decide⟩

/-- C6 amended: the drain-eligibility test is strict: one check of the
phase-1 drain loop pops and executes the head task exactly when its
`due_time` is strictly below the freshly read elapsed time; when
`due_time ≥ now` the loop exits with queue, trace and pop log
unchanged. -/
theorem C6_drain_strict (adv : ℕ → ℚ) (fuel : ℕ) (s : SchedState) (t : Task)
    (rest : List Task) (hq : s.queue = t :: rest)
    (hact : t.action = "add_neutralization") :
    (t.time_to_execute < s.now + adv s.reads →
      Event.neut t.sample_id (s.now + adv s.reads) t.time_to_execute ∈
        (drainLoopF adv (fuel + 1) s).trace ∧
      t ∈ (drainLoopF adv (fuel + 1) s).popLog) ∧
    (¬ t.time_to_execute < s.now + adv s.reads →
      (drainLoopF adv (fuel + 1) s).queue = s.queue ∧
      (drainLoopF adv (fuel + 1) s).trace = s.trace ∧
      (drainLoopF adv (fuel + 1) s).popLog = s.popLog) := by
  have htrace0 : (drainPop (bumpClock adv s)).trace = s.trace ++
      [Event.neut t.sample_id (s.now + adv s.reads) t.time_to_execute] := by
    rw [drainPop_eq (bumpClock adv s) t rest hq hact]
    rfl
  have hpop0 : (drainPop (bumpClock adv s)).popLog = s.popLog ++ [t] := by
    rw [drainPop_eq (bumpClock adv s) t rest hq hact]
    rfl
  constructor
  · intro hdue
    have hrw : drainLoopF adv (fuel + 1) s =
        drainLoopF adv fuel (drainPop (bumpClock adv s)) := by
      simp only [drainLoopF, hq]
      rw [if_pos (show t.time_to_execute < (bumpClock adv s).now from hdue)]
    rw [hrw]
    obtain ⟨t₂, htr, _, p₂, hpl⟩ :=
      drainLoopF_frame adv fuel (drainPop (bumpClock adv s))
    constructor
    · rw [htr, htrace0]
      simp
    · rw [hpl, hpop0]
      simp
  · intro hdue
    have hrw : drainLoopF adv (fuel + 1) s = bumpClock adv s := by
      simp only [drainLoopF, hq]
      rw [if_neg (show ¬ t.time_to_execute < (bumpClock adv s).now from hdue)]
    rw [hrw]
    exact ⟨rfl, rfl, rfl⟩

/-- Witness for the amended C6: a strictly due task (due 60, elapsed
100 at the check) is popped and executed by one drain iteration. -/
theorem C6_witness :
    Event.neut 0 (0 + 100) 60 ∈
      (drainLoopF (fun _ => 100) 1
        { queue := [⟨60, "add_neutralization", 0⟩], now := 0, reads := 0,
          trace := [], qlog := [], pushLog := [], popLog := [], waitLog := [],
          preLysis := [] }).trace ∧
    (⟨60, "add_neutralization", 0⟩ : Task) ∈
      (drainLoopF (fun _ => 100) 1
        { queue := [⟨60, "add_neutralization", 0⟩], now := 0, reads := 0,
          trace := [], qlog := [], pushLog := [], popLog := [], waitLog := [],
          preLysis := [] }).popLog :=
  (C6_drain_strict (fun _ => 100) 0
    { queue := [⟨60, "add_neutralization", 0⟩], now := 0, reads := 0,
      trace := [], qlog := [], pushLog := [], popLog := [], waitLog := [],
      preLysis := [] }
    ⟨60, "add_neutralization", 0⟩ [] rfl rfl).1 (by norm_num)

/-- C7: only the phase-2 final drain blocks: the full trace is the
phase-1 trace followed by a phase-2 remainder, the phase-1 trace contains
no invocation of the blocking Delay Primitive, and the remainder contains
no immediate (lysis) action — so during the interleaved issue phase no
blocking wait occurs. -/
theorem C7_phase1_never_blocks (cfg : Config) (adv : ℕ → ℚ)
    (hadv : ∀ k, 0 ≤ adv k) :
    ∃ t₂ : List Event,
      (run cfg adv).trace = (phase1 cfg adv).trace ++ t₂ ∧
      (∀ e ∈ (phase1 cfg adv).trace, isDelayEvent e = false) ∧
      (∀ e ∈ t₂, isLysisEvent e = false) := by
  obtain ⟨t₂, htr, hl, _, _⟩ :=
    phase2F_frame cfg adv (phase1 cfg adv).queue.length (phase1 cfg adv)
  exact ⟨t₂, htr, (phase1_Inv cfg adv hadv).hnodelay, hl⟩

/-- Witness for C7 on a concrete two-sample run. -/
theorem C7_witness :
    ∃ t₂ : List Event,
      (run ⟨2, 1, false⟩ (fun _ => 0)).trace =
        (phase1 ⟨2, 1, false⟩ (fun _ => 0)).trace ++ t₂ ∧
      (∀ e ∈ (phase1 ⟨2, 1, false⟩ (fun _ => 0)).trace,
        isDelayEvent e = false) ∧
      (∀ e ∈ t₂, isLysisEvent e = false) :=
  C7_phase1_never_blocks ⟨2, 1, false⟩ (fun _ => 0) (fun _ => le_refl 0)

/-- C8: at every point during the scheduling core's execution — every
queue snapshot taken after each push and each pop — at most one pending
task exists per `sample_id`; each sample's deferred task is pushed
exactly once (the push log is exactly `[0, …, N-1]`) and popped exactly
once (the pop log holds exactly one task per sample); tasks are immutable
values, never re-enqueued. -/
theorem C8_one_task_per_sample (cfg : Config) (adv : ℕ → ℚ)
    (hadv : ∀ k, 0 ≤ adv k) :
    (∀ q ∈ (run cfg adv).qlog, (q.map Task.sample_id).Nodup) ∧
    (run cfg adv).pushLog.map Task.sample_id = List.range cfg.sample_count ∧
    (↑((run cfg adv).popLog.map Task.sample_id) : Multiset ℕ) =
      (↑(List.range cfg.sample_count) : Multiset ℕ) := by
  have h2 := run_Inv2 cfg adv hadv
  refine ⟨h2.hqlog, h2.hpush, ?_⟩
  have h := h2.hpoppush
  rw [run_queue_nil cfg adv] at h
  simpa using h

/-- Witness for C8 on a concrete two-sample run. -/
theorem C8_witness :
    (run ⟨2, 1, false⟩ (fun _ => 0)).pushLog.map Task.sample_id =
      List.range 2 :=
  (C8_one_task_per_sample ⟨2, 1, false⟩ (fun _ => 0) (fun _ => le_refl 0)).2.1

/-- Modelled from the spec: the single-sample reference behaviour the
spec declares equivalent — "immediate action, then unconditional wait of
the fixed delay, then deferred action" — as an event trace: the lysis
action at time 0, one `delay` helper call of exactly `delay_lysis`
minutes, then the neutralization at time `delay_lysis * 60`. -/
def plainSequence (delay_lysis : ℕ) : List Event :=
  [Event.lysis 0 0] ++ delay delay_lysis false ++
    [Event.neut 0 (delay_lysis * 60) (delay_lysis * 60)]

/-- C9: for `sample_count = 1` the phase-1 drain loop never executes any
task (whatever the clock or debug flag: the queue is empty at its only
check, so phase 1 pops nothing and emits only `lysis 0`), and — for a
non-debug run in which no time elapses outside the blocking wait — the
run's trace is exactly the plain sequence: immediate lysis action, an
unconditional wait of the fixed `delay_lysis`-minute delay, then the
deferred neutralization action.  `delay_lysis` ranges over its declared
parameter bounds 1..5. -/
theorem C9_single_sample (dm : ℕ) (hdm1 : 1 ≤ dm) (hdm5 : dm ≤ 5) :
    (∀ (dbg : Bool) (adv : ℕ → ℚ),
      (phase1 ⟨1, dm, dbg⟩ adv).popLog = [] ∧
      (phase1 ⟨1, dm, dbg⟩ adv).trace = [Event.lysis 0 0]) ∧
    (run ⟨1, dm, false⟩ (fun _ => 0)).trace = plainSequence dm := by
  constructor
  · intro dbg adv
    exact ⟨rfl, rfl⟩
  · interval_cases dm <;> decide

/-- Witness for C9 at the spec's 180-second scenario
(`delay_lysis = 3`). -/
theorem C9_witness :
    (run ⟨1, 3, false⟩ (fun _ => 0)).trace = plainSequence 3 :=
  (C9_single_sample 3 (by norm_num) (by norm_num)).2

/-- C10: the `delay` helper emits the comment
`Debugging mode: delay skipped.` exactly when the debug flag is false —
that is, exactly on the runs where the blocking delay IS performed; when
debug is true the delay is skipped, no skip message is emitted, and only
the `Delay protocol by N min.` comment appears. -/
theorem C10_skip_comment_inverted (m : ℚ) :
    (∀ debug : Bool, Event.commentSkipped ∈ delay m debug ↔ debug = false) ∧
    (∀ debug : Bool, Event.doDelay m ∈ delay m debug ↔ debug = false) ∧
    delay m true = [Event.commentDelayBy m] ∧
    delay m false =
      [Event.commentSkipped, Event.doDelay m, Event.commentDelayBy m] := by
  refine ⟨?_, ?_, rfl, rfl⟩ <;> intro debug <;> cases debug <;> simp [delay]

end NucleoMag
